import Mathlib

/-!
# CSnippets: the pid table supervisor

A shallow embedding of the process supervisor fragments of the repository:

* `pid_table.c` : `setup_pid_table`, `cleanup_deactivated_pids`
* `spawn_process.c` : `spawn_process`
* `client.c` : one iteration of the command loop of `main`
* `ignutil.h` / `headers/pid_table.h` : `MAX_PROCS`, `STRING_SIZE`, `PidTable`, `Work`

One process is followed at a time.  Its calls on the semaphore, its reads and
writes of the slots, its calls of `fork` and the text it prints are recorded, in
program order, in a trace of events.  Other processes are outside the model: a
`sem_wait` is recorded and returns.  The result of the n-th call of `fork` made by
one call of `spawn_process` is given by an oracle `fork : Nat → Int`.
-/

namespace CSnippets

/-! ## Constants and data (ignutil.h, headers/pid_table.h) -/

/-- The number of slots of the pid table: `#define MAX_PROCS 4`. -/
abbrev MAX_PROCS : Nat := 4

/-- The size of the command buffer: `#define STRING_SIZE 1024`. -/
abbrev STRING_SIZE : Nat := 1024

/-- The shared table `PidTable` (`PidMemoryView` in ignutil.h): the array
`pid_t pids[MAX_PROCS]`.  The field `sem_t mutex` is represented by the events
`sem_wait` and `sem_post` of the trace. -/
structure PidTable where
  pids : Fin MAX_PROCS → Int

/-- A C `char`, as its numeric value. -/
abbrev CChar := Nat

/-- The newline character. -/
abbrev NL : CChar := 10

/-- The terminating NUL character. -/
abbrev NUL : CChar := 0

/-- The request `Work`: two character buffers of `STRING_SIZE` characters. -/
structure Work where
  command : List CChar
  filename : List CChar

/-- The lines the supervisor code prints. -/
inductive Output
  /-- Line `printf("Started a new process with pid %d\n", pid)`. -/
  | started (pid : Int)
  /-- Line `printf("All available processes are busy, try again later\n")`. -/
  | busy
  /-- Line `perror("Failed to fork")`. -/
  | failed_to_fork
  /-- Line `printf("Cleaned up pid %d\n", pid)`. -/
  | cleaned (pid : Int)
  deriving DecidableEq, Repr

/-- The observable steps of one process, in program order. -/
inductive Event
  /-- Acquire the guard: `sem_wait(&pid_table->mutex)`. -/
  | sem_wait
  /-- Release the guard: `sem_post(&pid_table->mutex)`. -/
  | sem_post
  /-- A read of `pid_table->pids[i]`. -/
  | read (i : Fin MAX_PROCS)
  /-- A write `pid_table->pids[i] = v`. -/
  | write (i : Fin MAX_PROCS) (v : Int)
  /-- A call of `fork()` that returned `ret`. -/
  | fork (ret : Int)
  /-- A line written to the terminal. -/
  | out (o : Output)
  deriving DecidableEq, Repr

/-- The state of a running call: the slots, the number of calls of `fork` made so
far, and the events so far. -/
structure Run where
  pids : Fin MAX_PROCS → Int
  forks : Nat
  trace : List Event

/-- The table held by a run. -/
def Run.table (r : Run) : PidTable := ⟨r.pids⟩

/-- The start of a call on table `t`: nothing has happened yet. -/
def Run.start (t : PidTable) : Run := ⟨t.pids, 0, []⟩

/-- Append one event to the trace. -/
def Run.emit (r : Run) (e : Event) : Run := { r with trace := r.trace ++ [e] }

/-- A table given by the list of its slots (missing slots are 0). -/
def tableOf (l : List Int) : PidTable := ⟨fun i => l.getD i.val 0⟩

/-! ## pid_table.c -/

/-- The loop `for (int i = 0; i < MAX_PROCS; i++) data->pids[i] = 0;` of
`setup_pid_table`, from index `i`, with `n` iterations allowed. -/
def setup_loop : Nat → Nat → (Fin MAX_PROCS → Int) → (Fin MAX_PROCS → Int)
  | 0, _, pids => pids
  | n + 1, i, pids =>
    if h : i < MAX_PROCS then setup_loop n (i + 1) (Function.update pids ⟨i, h⟩ 0)
    else pids

/-- Function `setup_pid_table`: `data` is the freshly mapped shared memory, whose
slots are then all set to 0 (the semaphore is initialised to 1, guard free). -/
def setup_pid_table (data : PidTable) : PidTable :=
  ⟨setup_loop MAX_PROCS 0 data.pids⟩

/-- The loop of `cleanup_deactivated_pids` from index `i`, with `n` iterations
allowed: the first slot equal to `pid` is cleared and the loop is left (`break`). -/
def cleanup_loop (pid : Int) : Nat → Nat → Run → Run
  | 0, _, r => r
  | n + 1, i, r =>
    if h : i < MAX_PROCS then
      let r1 := r.emit (Event.read ⟨i, h⟩)
      if r.pids ⟨i, h⟩ = pid then
        let r2 : Run := { r1 with pids := Function.update r.pids ⟨i, h⟩ 0 }
        (r2.emit (Event.write ⟨i, h⟩ 0)).emit (Event.out (Output.cleaned pid))
      else cleanup_loop pid n (i + 1) r1
    else r

/-- Function `cleanup_deactivated_pids`, run by the process whose `getpid()` is
`pid`, on table `t`. -/
def cleanup_deactivated_pids (pid : Int) (t : PidTable) : Run :=
  let r0 := (Run.start t).emit Event.sem_wait
  let r1 := cleanup_loop pid MAX_PROCS 0 r0
  r1.emit Event.sem_post

/-! ## spawn_process.c -/

/-- Where control is after a piece of `spawn_process`. -/
inductive SpawnResult
  /-- Control goes on in the calling process (and at the end returns to the
  caller), with the local flag `pid_set`. -/
  | returned (pid_set : Bool) (r : Run)
  /-- Result 0 of `fork`: this is the new process, which (after
  `setup_signal_handling()` and `atexit(cleanup_pid)`, two functions that are not in
  the sources) replaces its image by `sh -c command` or exits; it never returns
  from the function. -/
  | child (command : List CChar) (r : Run)

/-- The characters of the C string held in a buffer: those before the first NUL. -/
def cstr (buf : List CChar) : List CChar := buf.takeWhile (fun c => c ≠ NUL)

/-- The body of the for loop of `spawn_process` at index `i`. -/
def spawn_body (fork : Nat → Int) (candidate : Work) (i : Fin MAX_PROCS) (r : Run) :
    SpawnResult :=
  let r1 := r.emit (Event.read i)
  if r.pids i = 0 then
    let pid := fork r.forks
    let r2 : Run := { r1 with forks := r.forks + 1 }
    let r3 := r2.emit (Event.fork pid)
    if pid = 0 then
      SpawnResult.child (cstr candidate.command) r3
    else if pid > 0 then
      let r4 := (r3.emit (Event.out (Output.started pid))).emit Event.sem_wait
      let r5 : Run := { r4 with pids := Function.update r.pids i pid }
      SpawnResult.returned true ((r5.emit (Event.write i pid)).emit Event.sem_post)
    else
      SpawnResult.returned false (r3.emit (Event.out Output.failed_to_fork))
  else SpawnResult.returned false r1

/-- The loop `for (int i = 0; ((i < MAX_PROCS) && (!pid_set)); ++i)` of
`spawn_process`, from index `i`, with `n` iterations allowed. -/
def spawn_loop (fork : Nat → Int) (candidate : Work) :
    Nat → Nat → Bool → Run → SpawnResult
  | 0, _, pid_set, r => SpawnResult.returned pid_set r
  | n + 1, i, pid_set, r =>
    if h : i < MAX_PROCS ∧ pid_set = false then
      match spawn_body fork candidate ⟨i, h.1⟩ r with
      | SpawnResult.returned ps r1 => spawn_loop fork candidate n (i + 1) ps r1
      | SpawnResult.child c r1 => SpawnResult.child c r1
    else SpawnResult.returned pid_set r

/-- Function `spawn_process` on table `t`. -/
def spawn_process (fork : Nat → Int) (candidate : Work) (t : PidTable) : SpawnResult :=
  match spawn_loop fork candidate MAX_PROCS 0 false (Run.start t) with
  | SpawnResult.returned pid_set r =>
    if pid_set = false then
      SpawnResult.returned pid_set (r.emit (Event.out Output.busy))
    else SpawnResult.returned pid_set r
  | SpawnResult.child c r => SpawnResult.child c r

/-- The run of a result. -/
def SpawnResult.run : SpawnResult → Run
  | SpawnResult.returned _ r => r
  | SpawnResult.child _ r => r

/-- A sequence of calls of `spawn_process` made one after the other by the
supervisor, the call number j with the oracle number j: the results of the calls,
and the table after the last one.  A call that ends in the new process ends the
sequence there. -/
def launch_seq (candidate : Work) : List (Nat → Int) → PidTable → List SpawnResult × PidTable
  | [], t => ([], t)
  | f :: fs, t =>
    match spawn_process f candidate t with
    | SpawnResult.returned ps r =>
      let rest := launch_seq candidate fs r.table
      (SpawnResult.returned ps r :: rest.1, rest.2)
    | SpawnResult.child c r => ([SpawnResult.child c r], r.table)

/-- Three launches whose `fork` returns 11, 12 and 13. -/
def threeLaunches : List (Nat → Int) := [fun _ => 11, fun _ => 12, fun _ => 13]

/-- The number of empty slots with index below `n`. -/
def emptyBelow (pids : Fin MAX_PROCS → Int) (n : Nat) : Nat :=
  (Finset.univ.filter (fun j : Fin MAX_PROCS => j.val < n ∧ pids j = 0)).card

/-- The events expected of the scan of slot `j` in a call where process creation
fails there: the read of the slot and, when the slot is empty, the call of `fork`,
which is the call number (empty slots below `j`) of the oracle, and the line
"Failed to fork".  This follows the statement of the amended claim C7, not the code. -/
def scanSlot (fork : Nat → Int) (pids : Fin MAX_PROCS → Int) (j : Nat) : List Event :=
  if h : j < MAX_PROCS then
    if pids ⟨j, h⟩ = 0 then
      [Event.read ⟨j, h⟩, Event.fork (fork (emptyBelow pids j)),
        Event.out Output.failed_to_fork]
    else [Event.read ⟨j, h⟩]
  else []

/-- The events expected of a scan, in index order, of the `len` slots `lo`, `lo + 1`,
... in which every process creation fails.  This follows the statement of the
amended claim C7, not the code. -/
def failedScan (fork : Nat → Int) (pids : Fin MAX_PROCS → Int) (lo len : Nat) :
    List Event :=
  (List.range' lo len).flatMap (scanSlot fork pids)

/-- The number of empty slots of a table. -/
def PidTable.emptySlots (t : PidTable) : Nat :=
  (Finset.univ.filter (fun j : Fin MAX_PROCS => t.pids j = 0)).card

/-! ## The guard discipline on traces -/

/-- Reading a trace from a point where the guard is held (`held = true`) or not:
every read and every write of a slot happens while the guard is held, that is
after a `sem_wait` with no `sem_post` since. -/
def guardedFrom : Bool → List Event → Bool
  | _, [] => true
  | _, Event.sem_wait :: es => guardedFrom true es
  | _, Event.sem_post :: es => guardedFrom false es
  | held, Event.read _ :: es => held && guardedFrom held es
  | held, Event.write _ _ :: es => held && guardedFrom held es
  | held, Event.fork _ :: es => guardedFrom held es
  | held, Event.out _ :: es => guardedFrom held es

/-- The reads of the slots `i`, `i + 1`, ... made by at most `n` iterations of a
loop over the table that finds nothing. -/
def readsFrom : Nat → Nat → List Event
  | 0, _ => []
  | n + 1, i => if h : i < MAX_PROCS then Event.read ⟨i, h⟩ :: readsFrom n (i + 1) else []

/-- A trace of a call, which starts without the guard, keeps the guard discipline. -/
def guarded (tr : List Event) : Bool := guardedFrom false tr

/-! ## client.c -/

/-- The characters `fgets` takes from the stream when it may store at most `n` of
them: it stops after a newline, at the end of the input, or after `n` characters.
The result is the characters taken and the rest of the stream. -/
def fgets_take : Nat → List CChar → List CChar × List CChar
  | 0, inp => ([], inp)
  | _ + 1, [] => ([], [])
  | n + 1, c :: cs =>
    if c = NL then ([c], cs)
    else ((c :: (fgets_take n cs).1), (fgets_take n cs).2)

/-- Call `fgets(s, size, stdin)` on the buffer `s`: at most `size - 1` characters
are stored, followed by a NUL; the rest of the buffer keeps its content.  At the end
of the input with no character read the result is NULL (`none`). -/
def fgets (s : List CChar) (size : Nat) (stdin : List CChar) :
    Option (List CChar × List CChar) :=
  let got := fgets_take (size - 1) stdin
  if got.1 = [] then none
  else some (got.1 ++ [NUL] ++ s.drop (got.1.length + 1), got.2)

/-- Call `strcspn(s, reject)`: the length of the longest initial part of the C
string `s` with no character of `reject`. -/
def strcspn (s : List CChar) (reject : List CChar) : Nat :=
  (s.takeWhile (fun c => decide (c ≠ NUL) && !(reject.contains c))).length

/-- The reading part of one iteration of the loop of `main`: `fgets` into
`work->command` (of size `sizeof(work->command) = STRING_SIZE`), then
`work->command[strcspn(work->command, "\n")] = 0`.  The result is the request as
it is passed to `spawn_process` and the rest of the input; `none` when `fgets`
returned NULL and `spawn_process` is not called. -/
def client_read (work : Work) (stdin : List CChar) : Option (Work × List CChar) :=
  match fgets work.command STRING_SIZE stdin with
  | some (buf, rest) =>
    some ({ work with command := buf.set (strcspn buf [NL]) NUL }, rest)
  | none => none

/-- One iteration of the loop `while (1)` of `main` in client.c (the prompt it
prints is left out): the request, the rest of the input, and the result of the call
of `spawn_process`, if it is made. -/
def client_iteration (fork : Nat → Int) (work : Work) (stdin : List CChar) (t : PidTable) :
    Work × List CChar × Option SpawnResult :=
  match client_read work stdin with
  | some (w, rest) => (w, rest, some (spawn_process fork w t))
  | none => (work, stdin, none)

/-! ## Basic facts about runs -/

@[simp] theorem Run.emit_pids (r : Run) (e : Event) : (r.emit e).pids = r.pids := rfl

@[simp] theorem Run.emit_forks (r : Run) (e : Event) : (r.emit e).forks = r.forks := rfl

@[simp] theorem Run.emit_trace (r : Run) (e : Event) :
    (r.emit e).trace = r.trace ++ [e] := rfl

@[simp] theorem Run.start_pids (t : PidTable) : (Run.start t).pids = t.pids := rfl

@[simp] theorem Run.start_forks (t : PidTable) : (Run.start t).forks = 0 := rfl

@[simp] theorem Run.start_trace (t : PidTable) : (Run.start t).trace = [] := rfl

@[simp] theorem Run.table_pids (r : Run) : r.table.pids = r.pids := rfl

/-! ## The loop of spawn_process -/

/-- Once `pid_set` is true the loop is left. -/
theorem spawn_loop_set (fork : Nat → Int) (c : Work) (n i : Nat) (r : Run) :
    spawn_loop fork c n i true r = SpawnResult.returned true r := by
  cases n <;> simp [spawn_loop]

/-- Searching from index `i`: when `k` is the first empty slot at or after `i` and
the next call of `fork` returns `p > 0`, the loop stores `p` in slot `k`. -/
theorem spawn_loop_find (fork : Nat → Int) (c : Work) (p : Int) (k : Fin MAX_PROCS) :
    ∀ (n i : Nat) (r : Run), i ≤ k.val → k.val < i + n → r.pids k = 0 →
      (∀ j : Fin MAX_PROCS, i ≤ j.val → j.val < k.val → r.pids j ≠ 0) →
      fork r.forks = p → 0 < p →
      ∃ pre : List Event, spawn_loop fork c n i false r =
        SpawnResult.returned true
          ⟨Function.update r.pids k p, r.forks + 1,
            r.trace ++ pre ++ [Event.read k, Event.fork p, Event.out (Output.started p),
              Event.sem_wait, Event.write k p, Event.sem_post]⟩ ∧
        ∀ e ∈ pre, ∃ j : Fin MAX_PROCS, j.val < k.val ∧ e = Event.read j := by
  intro n
  induction n with
  | zero => intro i r h1 h2; omega
  | succ n ih =>
    intro i r h1 h2 hk hlow hf hp
    have hi : i < MAX_PROCS := lt_of_le_of_lt h1 k.isLt
    by_cases hik : i = k.val
    · have hki : (⟨i, hi⟩ : Fin MAX_PROCS) = k := Fin.ext hik
      refine ⟨[], ?_, by simp⟩
      have hp0 : p ≠ 0 := ne_of_gt hp
      simp [spawn_loop, spawn_body, hi, hki, hk, hf, hp, hp0, spawn_loop_set, Run.emit]
    · have hlt : i < k.val := lt_of_le_of_ne h1 hik
      have hne : r.pids ⟨i, hi⟩ ≠ 0 := hlow ⟨i, hi⟩ (le_refl _) hlt
      obtain ⟨pre, hpre, hall⟩ := ih (i + 1) (r.emit (Event.read ⟨i, hi⟩)) hlt (by omega)
        (by simpa using hk) (fun j hj1 hj2 => by simpa using hlow j (by omega) hj2)
        (by simpa using hf) hp
      refine ⟨Event.read ⟨i, hi⟩ :: pre, ?_, ?_⟩
      · simp [spawn_loop, spawn_body, hi, hne, hpre]
      · intro e he
        rcases List.mem_cons.1 he with h | h
        · exact ⟨⟨i, hi⟩, hlt, h⟩
        · exact hall e h

/-- Among the slots with a decidable property, when there is one there is a lowest. -/
theorem exists_lowest (P : Fin MAX_PROCS → Prop) [DecidablePred P] (h : ∃ j, P j) :
    ∃ i, P i ∧ ∀ j, j < i → ¬ P j := by
  have hex : ∃ n : Nat, ∃ hn : n < MAX_PROCS, P ⟨n, hn⟩ := by
    obtain ⟨j, hj⟩ := h
    exact ⟨j.val, j.isLt, hj⟩
  classical
  obtain ⟨hn, hP⟩ := Nat.find_spec hex
  refine ⟨⟨Nat.find hex, hn⟩, hP, ?_⟩
  intro j hj hPj
  exact Nat.find_min hex (show j.val < Nat.find hex from hj) ⟨j.isLt, hPj⟩

/-- On a table with no empty slot from index `i` on, the loop only reads. -/
theorem spawn_loop_full (fork : Nat → Int) (c : Work) :
    ∀ (n i : Nat) (r : Run), (∀ j : Fin MAX_PROCS, i ≤ j.val → r.pids j ≠ 0) →
      spawn_loop fork c n i false r =
        SpawnResult.returned false ⟨r.pids, r.forks, r.trace ++ readsFrom n i⟩ := by
  intro n
  induction n with
  | zero => intro i r _; simp [spawn_loop, readsFrom]
  | succ n ih =>
    intro i r h
    by_cases hi : i < MAX_PROCS
    · have hne : r.pids ⟨i, hi⟩ ≠ 0 := h ⟨i, hi⟩ (le_refl _)
      have := ih (i + 1) (r.emit (Event.read ⟨i, hi⟩))
        (fun j hj => by simpa using h j (by omega))
      simp [spawn_loop, spawn_body, hi, hne, this, readsFrom]
    · simp [spawn_loop, hi, readsFrom]

/-- The reads of a whole pass over the table. -/
theorem readsFrom_all :
    readsFrom MAX_PROCS 0 = [Event.read 0, Event.read 1, Event.read 2, Event.read 3] := rfl

/-- The call of `spawn_process` on a table whose lowest empty slot is `k`, when the
first call of `fork` returns `p > 0`: the whole result. -/
theorem spawn_process_at (fork : Nat → Int) (c : Work) (t : PidTable) (p : Int)
    (k : Fin MAX_PROCS) (hk : t.pids k = 0) (hlow : ∀ j, j < k → t.pids j ≠ 0)
    (hf : fork 0 = p) (hp : 0 < p) :
    ∃ pre : List Event, spawn_process fork c t =
      SpawnResult.returned true
        ⟨Function.update t.pids k p, 1,
          pre ++ [Event.read k, Event.fork p, Event.out (Output.started p),
            Event.sem_wait, Event.write k p, Event.sem_post]⟩ ∧
      ∀ e ∈ pre, ∃ j : Fin MAX_PROCS, j.val < k.val ∧ e = Event.read j := by
  obtain ⟨pre, hpre, hall⟩ := spawn_loop_find fork c p k MAX_PROCS 0 (Run.start t)
    (Nat.zero_le _) (by have := k.isLt; omega) hk (fun j _ hj => hlow j hj) hf hp
  refine ⟨pre, ?_, hall⟩
  simp [spawn_process, hpre]

/-! ## The loop of cleanup_deactivated_pids -/

/-- Searching from index `i`: when `k` is the first slot at or after `i` that holds
`pid`, the loop clears slot `k` and stops. -/
theorem cleanup_loop_find (pid : Int) (k : Fin MAX_PROCS) :
    ∀ (n i : Nat) (r : Run), i ≤ k.val → k.val < i + n → r.pids k = pid →
      (∀ j : Fin MAX_PROCS, i ≤ j.val → j.val < k.val → r.pids j ≠ pid) →
      ∃ pre : List Event, cleanup_loop pid n i r =
        ⟨Function.update r.pids k 0, r.forks,
          r.trace ++ pre ++ [Event.read k, Event.write k 0,
            Event.out (Output.cleaned pid)]⟩ ∧
        ∀ e ∈ pre, ∃ j : Fin MAX_PROCS, j.val < k.val ∧ e = Event.read j := by
  intro n
  induction n with
  | zero => intro i r h1 h2; omega
  | succ n ih =>
    intro i r h1 h2 hk hlow
    have hi : i < MAX_PROCS := lt_of_le_of_lt h1 k.isLt
    by_cases hik : i = k.val
    · have hki : (⟨i, hi⟩ : Fin MAX_PROCS) = k := Fin.ext hik
      refine ⟨[], ?_, by simp⟩
      simp [cleanup_loop, hi, hki, hk, Run.emit]
    · have hlt : i < k.val := lt_of_le_of_ne h1 hik
      have hne : r.pids ⟨i, hi⟩ ≠ pid := hlow ⟨i, hi⟩ (le_refl _) hlt
      obtain ⟨pre, hpre, hall⟩ := ih (i + 1) (r.emit (Event.read ⟨i, hi⟩)) hlt (by omega)
        (by simpa using hk) (fun j hj1 hj2 => by simpa using hlow j (by omega) hj2)
      refine ⟨Event.read ⟨i, hi⟩ :: pre, ?_, ?_⟩
      · simp [cleanup_loop, hi, hne, hpre]
      · intro e he
        rcases List.mem_cons.1 he with h | h
        · exact ⟨⟨i, hi⟩, hlt, h⟩
        · exact hall e h

/-- On a table with no slot equal to `pid` from index `i` on, the loop only reads. -/
theorem cleanup_loop_absent (pid : Int) :
    ∀ (n i : Nat) (r : Run), (∀ j : Fin MAX_PROCS, i ≤ j.val → r.pids j ≠ pid) →
      cleanup_loop pid n i r = ⟨r.pids, r.forks, r.trace ++ readsFrom n i⟩ := by
  intro n
  induction n with
  | zero => intro i r _; simp [cleanup_loop, readsFrom]
  | succ n ih =>
    intro i r h
    by_cases hi : i < MAX_PROCS
    · have hne : r.pids ⟨i, hi⟩ ≠ pid := h ⟨i, hi⟩ (le_refl _)
      have := ih (i + 1) (r.emit (Event.read ⟨i, hi⟩))
        (fun j hj => by simpa using h j (by omega))
      simp [cleanup_loop, hi, hne, this, readsFrom]
    · simp [cleanup_loop, hi, readsFrom]

/-- The call of `cleanup_deactivated_pids` for a pid whose lowest slot is `k`: the
whole result. -/
theorem cleanup_at (pid : Int) (t : PidTable) (k : Fin MAX_PROCS) (hk : t.pids k = pid)
    (hlow : ∀ j, j < k → t.pids j ≠ pid) :
    ∃ pre : List Event, cleanup_deactivated_pids pid t =
      ⟨Function.update t.pids k 0, 0,
        Event.sem_wait :: pre ++ [Event.read k, Event.write k 0,
          Event.out (Output.cleaned pid), Event.sem_post]⟩ ∧
      ∀ e ∈ pre, ∃ j : Fin MAX_PROCS, j.val < k.val ∧ e = Event.read j := by
  obtain ⟨pre, hpre, hall⟩ := cleanup_loop_find pid k MAX_PROCS 0
    ((Run.start t).emit Event.sem_wait) (Nat.zero_le _) (by have := k.isLt; omega)
    (by simpa using hk) (fun j _ hj => by simpa using hlow j hj)
  refine ⟨pre, ?_, hall⟩
  simp only [cleanup_deactivated_pids, hpre]
  simp [Run.emit, Run.start]

/-! ## The claims on single calls -/

/-- Claim C1: on a table with at least one empty slot, when the first call of `fork`
returns `p > 0`, `spawn_process` returns with `pid_set` true after that one call of
`fork`, having written `p` into the lowest-index empty slot `i`; every other slot keeps
its value, so exactly one slot changes, from 0 to `p`. -/
theorem spawn_process_records_in_lowest_empty (fork : Nat → Int) (candidate : Work)
    (t : PidTable) (p : Int) (hex : ∃ j, t.pids j = 0) (hf : fork 0 = p) (hp : 0 < p) :
    ∃ (i : Fin MAX_PROCS) (r : Run),
      spawn_process fork candidate t = SpawnResult.returned true r ∧
      t.pids i = 0 ∧ (∀ j, j < i → t.pids j ≠ 0) ∧
      r.pids i = p ∧ (∀ j, j ≠ i → r.pids j = t.pids j) ∧
      r.forks = 1 ∧ Event.write i p ∈ r.trace ∧
      (∀ j v, Event.write j v ∈ r.trace → j = i ∧ v = p) := by
  obtain ⟨i, hi, hlow⟩ := exists_lowest (fun j => t.pids j = 0) hex
  obtain ⟨pre, hres, hall⟩ := spawn_process_at fork candidate t p i hi hlow hf hp
  refine ⟨i, _, hres, hi, hlow, by simp, ?_, rfl, by simp, ?_⟩
  · intro j hj
    simp [Function.update_noteq hj]
  · intro j v hmem
    simp only [List.mem_append, List.mem_cons, List.mem_singleton, List.not_mem_nil,
      or_false] at hmem
    rcases hmem with h | h
    · obtain ⟨j2, _, h2⟩ := hall _ h
      cases h2
    · simpa using h

/-- Witness for C1: table (3, 0, 5, 0), `fork` returns 7. -/
theorem spawn_process_records_in_lowest_empty_witness :
    (∃ j, (tableOf [3, 0, 5, 0]).pids j = 0) ∧ (0 : Int) < 7 ∧
    ∃ (i : Fin MAX_PROCS) (r : Run),
      spawn_process (fun _ => 7) ⟨[], []⟩ (tableOf [3, 0, 5, 0]) =
        SpawnResult.returned true r ∧
      (tableOf [3, 0, 5, 0]).pids i = 0 ∧
      (∀ j, j < i → (tableOf [3, 0, 5, 0]).pids j ≠ 0) ∧
      r.pids i = 7 ∧ (∀ j, j ≠ i → r.pids j = (tableOf [3, 0, 5, 0]).pids j) ∧
      r.forks = 1 ∧ Event.write i 7 ∈ r.trace ∧
      (∀ j v, Event.write j v ∈ r.trace → j = i ∧ v = 7) :=
  ⟨⟨1, rfl⟩, by decide,
    spawn_process_records_in_lowest_empty (fun _ => 7) ⟨[], []⟩ (tableOf [3, 0, 5, 0]) 7
      ⟨1, rfl⟩ rfl (by decide)⟩

/-- Claim C2: on a table whose MAX_PROCS = 4 slots are all non-zero, `spawn_process`
reads the four slots, calls `fork` not at all, leaves every slot as it was, prints
"All available processes are busy, try again later" and returns with `pid_set`
false: the whole result is given. -/
theorem spawn_process_full_table (fork : Nat → Int) (candidate : Work) (t : PidTable)
    (hfull : ∀ j, t.pids j ≠ 0) :
    spawn_process fork candidate t =
      SpawnResult.returned false
        ⟨t.pids, 0, [Event.read 0, Event.read 1, Event.read 2, Event.read 3,
          Event.out Output.busy]⟩ := by
  have h := spawn_loop_full fork candidate MAX_PROCS 0 (Run.start t) (fun j _ => hfull j)
  simp [spawn_process, h, readsFrom_all, Run.emit]

/-- Witness for C2: table (3, 1, 5, 2), whatever `fork` would return. -/
theorem spawn_process_full_table_witness :
    (∀ j, (tableOf [3, 1, 5, 2]).pids j ≠ 0) ∧
    spawn_process (fun _ => 9) ⟨[], []⟩ (tableOf [3, 1, 5, 2]) =
      SpawnResult.returned false
        ⟨(tableOf [3, 1, 5, 2]).pids, 0, [Event.read 0, Event.read 1, Event.read 2,
          Event.read 3, Event.out Output.busy]⟩ :=
  ⟨by decide, spawn_process_full_table (fun _ => 9) ⟨[], []⟩ (tableOf [3, 1, 5, 2])
    (by decide)⟩

/-- Claim C3: when `p` occurs in the table, `cleanup_deactivated_pids` run by the
process with pid `p` sets the lowest-index slot `i` equal to `p` to 0 and leaves every
other slot, a later slot equal to `p` included, as it was; the only write of its
trace is that one. -/
theorem cleanup_clears_lowest_match (p : Int) (t : PidTable) (hocc : ∃ j, t.pids j = p) :
    ∃ i : Fin MAX_PROCS, t.pids i = p ∧ (∀ j, j < i → t.pids j ≠ p) ∧
      (cleanup_deactivated_pids p t).pids i = 0 ∧
      (∀ j, j ≠ i → (cleanup_deactivated_pids p t).pids j = t.pids j) ∧
      (∀ j v, Event.write j v ∈ (cleanup_deactivated_pids p t).trace → j = i ∧ v = 0) := by
  obtain ⟨i, hi, hlow⟩ := exists_lowest (fun j => t.pids j = p) hocc
  obtain ⟨pre, hres, hall⟩ := cleanup_at p t i hi hlow
  refine ⟨i, hi, hlow, ?_, ?_, ?_⟩
  · simp [hres]
  · intro j hj
    simp [hres, Function.update_noteq hj]
  · intro j v hmem
    rw [hres] at hmem
    simp only [List.mem_append, List.mem_cons, List.mem_singleton, List.not_mem_nil,
      or_false, List.cons_append] at hmem
    rcases hmem with h | h | h
    · cases h
    · obtain ⟨j2, _, h2⟩ := hall _ h
      cases h2
    · simpa using h

/-- Witness for C3: table (3, 5, 5, 2) and pid 5, which occurs in slots 1 and 2. -/
theorem cleanup_clears_lowest_match_witness :
    (∃ j, (tableOf [3, 5, 5, 2]).pids j = 5) ∧
    ∃ i : Fin MAX_PROCS, (tableOf [3, 5, 5, 2]).pids i = 5 ∧
      (∀ j, j < i → (tableOf [3, 5, 5, 2]).pids j ≠ 5) ∧
      (cleanup_deactivated_pids 5 (tableOf [3, 5, 5, 2])).pids i = 0 ∧
      (∀ j, j ≠ i →
        (cleanup_deactivated_pids 5 (tableOf [3, 5, 5, 2])).pids j =
          (tableOf [3, 5, 5, 2]).pids j) ∧
      (∀ j v, Event.write j v ∈ (cleanup_deactivated_pids 5 (tableOf [3, 5, 5, 2])).trace →
        j = i ∧ v = 0) :=
  ⟨⟨1, rfl⟩, cleanup_clears_lowest_match 5 (tableOf [3, 5, 5, 2]) ⟨1, rfl⟩⟩

/-- Claim C4: when `p` occurs in no slot, `cleanup_deactivated_pids` run with pid `p`
takes the guard, reads the four slots, writes none, prints nothing, releases the
guard and returns, every slot being as it was: the whole result is given. -/
theorem cleanup_absent_pid_unchanged (p : Int) (t : PidTable) (habs : ∀ j, t.pids j ≠ p) :
    cleanup_deactivated_pids p t =
      ⟨t.pids, 0, [Event.sem_wait, Event.read 0, Event.read 1, Event.read 2, Event.read 3,
        Event.sem_post]⟩ := by
  have h := cleanup_loop_absent p MAX_PROCS 0 ((Run.start t).emit Event.sem_wait)
    (fun j _ => by simpa using habs j)
  simp only [cleanup_deactivated_pids, h, readsFrom_all]
  simp [Run.emit, Run.start]

/-- Witness for C4: table (3, 0, 5, 2) and pid 8, which is in no slot. -/
theorem cleanup_absent_pid_unchanged_witness :
    (∀ j, (tableOf [3, 0, 5, 2]).pids j ≠ 8) ∧
    cleanup_deactivated_pids 8 (tableOf [3, 0, 5, 2]) =
      ⟨(tableOf [3, 0, 5, 2]).pids, 0, [Event.sem_wait, Event.read 0, Event.read 1,
        Event.read 2, Event.read 3, Event.sem_post]⟩ :=
  ⟨by decide, cleanup_absent_pid_unchanged 8 (tableOf [3, 0, 5, 2]) (by decide)⟩

/-! ## Sequences of launches -/

/-- The loop of `setup_pid_table` sets to 0 the slots it passes and keeps the others. -/
theorem setup_loop_spec :
    ∀ (n i : Nat) (pids : Fin MAX_PROCS → Int) (j : Fin MAX_PROCS),
      setup_loop n i pids j = if i ≤ j.val ∧ j.val < i + n then 0 else pids j := by
  intro n
  induction n with
  | zero => intro i pids j; simp [setup_loop]; omega
  | succ n ih =>
    intro i pids j
    by_cases hi : i < MAX_PROCS
    · simp only [setup_loop, hi, dite_true, ih]
      by_cases hj : j = ⟨i, hi⟩
      · subst hj
        simp
      · have hne : j.val ≠ i := fun h => hj (Fin.ext h)
        rw [Function.update_noteq hj]
        by_cases h1 : i + 1 ≤ j.val ∧ j.val < i + 1 + n
        · have h2 : i ≤ j.val ∧ j.val < i + (n + 1) := by omega
          simp [h1, h2]
        · have h2 : ¬ (i ≤ j.val ∧ j.val < i + (n + 1)) := by omega
          simp [h1, h2]
    · have hj : ¬ (i ≤ j.val ∧ j.val < i + (n + 1)) := by
        have := j.isLt
        omega
      simp [setup_loop, hi, hj]

/-- Every slot of the table returned by `setup_pid_table` is 0. -/
theorem setup_pid_table_zero (data : PidTable) (j : Fin MAX_PROCS) :
    (setup_pid_table data).pids j = 0 := by
  have hj := j.isLt
  simp [setup_pid_table, setup_loop_spec, hj]

/-- Launches on a table whose slots below `m` are occupied and whose other slots are
empty, when every launch has its first `fork` succeed: launch number `j` writes its
pid into slot `m + j`. -/
theorem launch_seq_fill (c : Work) :
    ∀ (fs : List (Nat → Int)) (t : PidTable) (m : Nat), m + fs.length ≤ MAX_PROCS →
      (∀ j : Fin MAX_PROCS, m ≤ j.val → t.pids j = 0) →
      (∀ j : Fin MAX_PROCS, j.val < m → t.pids j ≠ 0) →
      (∀ f ∈ fs, 0 < f 0) →
      (launch_seq c fs t).1.length = fs.length ∧
      (∀ j f, fs[j]? = some f → ∃ (hj : m + j < MAX_PROCS) (r : Run),
        (launch_seq c fs t).1[j]? = some (SpawnResult.returned true r) ∧ r.forks = 1 ∧
        Event.write ⟨m + j, hj⟩ (f 0) ∈ r.trace ∧
        (launch_seq c fs t).2.pids ⟨m + j, hj⟩ = f 0) ∧
      (∀ i : Fin MAX_PROCS, i.val < m → (launch_seq c fs t).2.pids i = t.pids i) ∧
      (∀ i : Fin MAX_PROCS, m + fs.length ≤ i.val → (launch_seq c fs t).2.pids i = 0) := by
  intro fs
  induction fs with
  | nil =>
    intro t m _ he _ _
    refine ⟨rfl, ?_, fun i _ => rfl, fun i hi => he i (by simpa using hi)⟩
    intro j f hjf
    simp at hjf
  | cons f fs ih =>
    intro t m hlen he ho hpos
    have hlen2 : m + (fs.length + 1) ≤ MAX_PROCS := by simpa using hlen
    have hm : m < MAX_PROCS := by omega
    have hf0 : 0 < f 0 := hpos f (List.mem_cons_self _ _)
    obtain ⟨r1, hres, hp1, hf1, hw1⟩ : ∃ r1 : Run,
        spawn_process f c t = SpawnResult.returned true r1 ∧
        r1.pids = Function.update t.pids ⟨m, hm⟩ (f 0) ∧ r1.forks = 1 ∧
        Event.write ⟨m, hm⟩ (f 0) ∈ r1.trace := by
      obtain ⟨pre, hres, _⟩ := spawn_process_at f c t (f 0) ⟨m, hm⟩
        (he ⟨m, hm⟩ (le_refl _)) (fun j hj => ho j hj) rfl hf0
      exact ⟨_, hres, rfl, rfl, by simp⟩
    have hmne : ∀ j : Fin MAX_PROCS, j.val ≠ m → r1.pids j = t.pids j := by
      intro j hj
      have hne : j ≠ ⟨m, hm⟩ := fun h => hj (congrArg Fin.val h)
      rw [hp1, Function.update_noteq hne]
    have hmeq : r1.pids ⟨m, hm⟩ = f 0 := by rw [hp1]; simp
    obtain ⟨ih1, ih2, ih3, ih4⟩ := ih r1.table (m + 1) (by omega)
      (fun j hj => by
        rw [Run.table_pids, hmne j (by omega)]
        exact he j (by omega))
      (fun j hj => by
        rw [Run.table_pids]
        by_cases hjm : j.val = m
        · have : j = ⟨m, hm⟩ := Fin.ext hjm
          rw [this, hmeq]
          exact ne_of_gt hf0
        · rw [hmne j hjm]
          exact ho j (by omega))
      (fun g hg => hpos g (List.mem_cons_of_mem _ hg))
    have hseq : launch_seq c (f :: fs) t =
        (SpawnResult.returned true r1 :: (launch_seq c fs r1.table).1,
          (launch_seq c fs r1.table).2) := by
      simp [launch_seq, hres]
    rw [hseq]
    refine ⟨by simp [ih1], ?_, ?_, ?_⟩
    · intro j g hjg
      cases j with
      | zero =>
        have hg : f = g := by simpa using hjg
        subst hg
        refine ⟨hm, r1, by simp, hf1, hw1, ?_⟩
        have := ih3 ⟨m, hm⟩ (Nat.lt_succ_self m)
        rw [Run.table_pids, hmeq] at this
        exact this
      | succ j =>
        have hjg2 : fs[j]? = some g := by simpa using hjg
        obtain ⟨hj, r, h1, h2, h3, h4⟩ := ih2 j g hjg2
        have hj2 : m + (j + 1) < MAX_PROCS := by omega
        have hidx : (⟨m + 1 + j, hj⟩ : Fin MAX_PROCS) = ⟨m + (j + 1), hj2⟩ :=
          Fin.ext (by simp; omega)
        refine ⟨hj2, r, by simpa using h1, h2, ?_, ?_⟩
        · rw [← hidx]; exact h3
        · rw [← hidx]; exact h4
    · intro i hi
      have := ih3 i (by omega)
      rw [Run.table_pids, hmne i (by omega)] at this
      exact this
    · intro i hi
      exact ih4 i (by simp at hi; omega)

/-- Claim C5: from the table returned by `setup_pid_table` (every slot 0), a sequence
of k <= MAX_PROCS launches whose first `fork` returns pairwise distinct positive
pids: every launch returns with `pid_set` true after one `fork`, launch number j
writes its pid into slot j, after the sequence slot j still holds the pid of launch
j, the other slots are 0, and no pid is in two slots. -/
theorem launches_occupy_distinct_slots (candidate : Work) (data : PidTable)
    (fs : List (Nat → Int)) (hk : fs.length ≤ MAX_PROCS) (hpos : ∀ f ∈ fs, 0 < f 0)
    (hd : (fs.map (fun f => f 0)).Nodup) :
    (∀ i, (setup_pid_table data).pids i = 0) ∧
    (launch_seq candidate fs (setup_pid_table data)).1.length = fs.length ∧
    (∀ j f, fs[j]? = some f → ∃ (hj : j < MAX_PROCS) (r : Run),
      (launch_seq candidate fs (setup_pid_table data)).1[j]? =
        some (SpawnResult.returned true r) ∧
      r.forks = 1 ∧ Event.write ⟨j, hj⟩ (f 0) ∈ r.trace ∧
      (launch_seq candidate fs (setup_pid_table data)).2.pids ⟨j, hj⟩ = f 0) ∧
    (∀ i : Fin MAX_PROCS, fs.length ≤ i.val →
      (launch_seq candidate fs (setup_pid_table data)).2.pids i = 0) ∧
    (∀ a b : Fin MAX_PROCS,
      (launch_seq candidate fs (setup_pid_table data)).2.pids a ≠ 0 →
      (launch_seq candidate fs (setup_pid_table data)).2.pids a =
        (launch_seq candidate fs (setup_pid_table data)).2.pids b → a = b) := by
  obtain ⟨h1, h2, _, h4⟩ := launch_seq_fill candidate fs (setup_pid_table data) 0
    (by simpa using hk) (fun j _ => setup_pid_table_zero data j)
    (fun j hj => absurd hj (Nat.not_lt_zero _)) hpos
  have h2b : ∀ j f, fs[j]? = some f → ∃ (hj : j < MAX_PROCS) (r : Run),
      (launch_seq candidate fs (setup_pid_table data)).1[j]? =
        some (SpawnResult.returned true r) ∧
      r.forks = 1 ∧ Event.write ⟨j, hj⟩ (f 0) ∈ r.trace ∧
      (launch_seq candidate fs (setup_pid_table data)).2.pids ⟨j, hj⟩ = f 0 := by
    intro j f hjf
    obtain ⟨hj, r, a1, a2, a3, a4⟩ := h2 j f hjf
    have hj2 : j < MAX_PROCS := by omega
    have hidx : (⟨0 + j, hj⟩ : Fin MAX_PROCS) = ⟨j, hj2⟩ := Fin.ext (by simp)
    exact ⟨hj2, r, a1, a2, by rw [← hidx]; exact a3, by rw [← hidx]; exact a4⟩
  have h4b : ∀ i : Fin MAX_PROCS, fs.length ≤ i.val →
      (launch_seq candidate fs (setup_pid_table data)).2.pids i = 0 :=
    fun i hi => h4 i (by simpa using hi)
  refine ⟨setup_pid_table_zero data, h1, h2b, h4b, ?_⟩
  intro a b ha hab
  have hal : a.val < fs.length := by
    by_contra hcon
    exact ha (h4b a (by omega))
  have hbl : b.val < fs.length := by
    by_contra hcon
    exact ha (hab.trans (h4b b (by omega)))
  obtain ⟨_, _, _, _, _, ea⟩ := h2b a.val fs[a.val] (List.getElem?_eq_getElem hal)
  obtain ⟨_, _, _, _, _, eb⟩ := h2b b.val fs[b.val] (List.getElem?_eq_getElem hbl)
  have hab2 : fs[a.val] 0 = fs[b.val] 0 := by
    rw [← ea, ← eb]
    exact hab
  have hinj := (List.nodup_iff_injective_get.1 hd)
  have : (⟨a.val, by simpa using hal⟩ : Fin (fs.map (fun f => f 0)).length) =
      ⟨b.val, by simpa using hbl⟩ := by
    apply hinj
    simpa using hab2
  exact Fin.ext (by simpa using this)

/-- Witness for C5: three launches with pids 11, 12, 13 on the mapping (3, 5, 5, 2). -/
theorem launches_occupy_distinct_slots_witness :
    threeLaunches.length ≤ MAX_PROCS ∧ (∀ f ∈ threeLaunches, 0 < f 0) ∧
    (threeLaunches.map (fun f => f 0)).Nodup ∧
    (launch_seq ⟨[], []⟩ threeLaunches (setup_pid_table (tableOf [3, 5, 5, 2]))).2.pids 0 = 11 ∧
    (launch_seq ⟨[], []⟩ threeLaunches (setup_pid_table (tableOf [3, 5, 5, 2]))).2.pids 1 = 12 ∧
    (launch_seq ⟨[], []⟩ threeLaunches (setup_pid_table (tableOf [3, 5, 5, 2]))).2.pids 2 = 13 ∧
    (launch_seq ⟨[], []⟩ threeLaunches (setup_pid_table (tableOf [3, 5, 5, 2]))).2.pids 3 = 0 := by
  have hpos : ∀ f ∈ threeLaunches, 0 < f 0 := by
    intro f hf
    simp only [threeLaunches, List.mem_cons, List.mem_singleton, List.not_mem_nil,
      or_false] at hf
    rcases hf with h | h | h <;> subst h <;> decide
  have hnd : (threeLaunches.map (fun f => f 0)).Nodup := by decide
  obtain ⟨_, _, h, h0, _⟩ := launches_occupy_distinct_slots ⟨[], []⟩ (tableOf [3, 5, 5, 2])
    threeLaunches (by decide) hpos hnd
  obtain ⟨_, _, _, _, _, e0⟩ := h 0 (fun _ => 11) rfl
  obtain ⟨_, _, _, _, _, e1⟩ := h 1 (fun _ => 12) rfl
  obtain ⟨_, _, _, _, _, e2⟩ := h 2 (fun _ => 13) rfl
  exact ⟨by decide, hpos, hnd, e0, e1, e2, h0 3 (by decide)⟩

/-- Counting the empty slots below `i + 1`: those below `i`, then slot `i`. -/
theorem emptyBelow_step (pids : Fin MAX_PROCS → Int) (i : Nat) (hi : i < MAX_PROCS) :
    emptyBelow pids (i + 1) = emptyBelow pids i + (if pids ⟨i, hi⟩ = 0 then 1 else 0) := by
  have hsingle : (if pids ⟨i, hi⟩ = 0 then 1 else 0) =
      ∑ j : Fin MAX_PROCS,
        if (⟨i, hi⟩ : Fin MAX_PROCS) = j then (if pids j = 0 then 1 else 0) else 0 := by
    simp
  unfold emptyBelow
  rw [Finset.card_filter, Finset.card_filter, hsingle, ← Finset.sum_add_distrib]
  apply Finset.sum_congr rfl
  intro j _
  by_cases h1 : (⟨i, hi⟩ : Fin MAX_PROCS) = j
  · subst h1
    by_cases h2 : pids ⟨i, hi⟩ = 0 <;> simp [h2]
  · have h3 : i ≠ j.val := fun h => h1 (Fin.ext h)
    by_cases h2 : pids j = 0
    · by_cases h4 : j.val < i
      · have h5 : j.val < i + 1 := by omega
        simp [h1, h2, h4, h5]
      · have h5 : ¬ (j.val < i + 1) := by omega
        simp [h1, h2, h4, h5]
    · simp [h1, h2]

/-- There is no slot below index 0. -/
theorem emptyBelow_zero (pids : Fin MAX_PROCS → Int) : emptyBelow pids 0 = 0 := by
  unfold emptyBelow
  rw [Finset.card_eq_zero, Finset.filter_eq_empty_iff]
  intro j _ hj
  exact Nat.not_lt_zero _ hj.1

/-- The count of the empty slots below an index grows with the index. -/
theorem emptyBelow_mono (pids : Fin MAX_PROCS → Int) (a b : Nat) (hab : a ≤ b) :
    emptyBelow pids a ≤ emptyBelow pids b := by
  unfold emptyBelow
  apply Finset.card_le_card
  intro j hj
  simp only [Finset.mem_filter, Finset.mem_univ, true_and] at hj ⊢
  exact ⟨lt_of_lt_of_le hj.1 hab, hj.2⟩

/-- The empty slots of a table are those below index MAX_PROCS. -/
theorem emptySlots_eq (t : PidTable) : t.emptySlots = emptyBelow t.pids MAX_PROCS := by
  unfold PidTable.emptySlots emptyBelow
  congr 1
  apply Finset.filter_congr
  intro j _
  simp [j.isLt]

/-- The scan of the slots from `lo`: slot `lo` first, then the slots above. -/
theorem failedScan_succ (fork : Nat → Int) (pids : Fin MAX_PROCS → Int) (lo len : Nat) :
    failedScan fork pids lo (len + 1) =
      scanSlot fork pids lo ++ failedScan fork pids (lo + 1) len := by
  simp [failedScan, List.range']

/-- A scan of no slot has no event. -/
theorem failedScan_zero (fork : Nat → Int) (pids : Fin MAX_PROCS → Int) (lo : Nat) :
    failedScan fork pids lo 0 = [] := by
  simp [failedScan]

/-- One passage of the loop at a slot `i` where no pid gets recorded: the slot is
occupied, or it is empty and the call of `fork` fails. -/
theorem spawn_loop_pass (fork : Nat → Int) (c : Work) (n i : Nat) (r : Run)
    (hi : i < MAX_PROCS) (hforks : r.forks = emptyBelow r.pids i)
    (hfail : r.pids ⟨i, hi⟩ = 0 → fork (emptyBelow r.pids i) < 0) :
    spawn_loop fork c (n + 1) i false r =
      spawn_loop fork c n (i + 1) false
        ⟨r.pids, emptyBelow r.pids (i + 1), r.trace ++ scanSlot fork r.pids i⟩ := by
  by_cases h0 : r.pids ⟨i, hi⟩ = 0
  · have hneg : fork (emptyBelow r.pids i) < 0 := hfail h0
    have hne : fork (emptyBelow r.pids i) ≠ 0 := ne_of_lt hneg
    have hnp : ¬ fork (emptyBelow r.pids i) > 0 := not_lt.2 (le_of_lt hneg)
    simp [spawn_loop, spawn_body, scanSlot, hi, h0, hforks, hne, hnp, Run.emit,
      emptyBelow_step r.pids i hi]
  · simp [spawn_loop, spawn_body, scanSlot, hi, h0, hforks, Run.emit,
      emptyBelow_step r.pids i hi]

/-- When every call of `fork` fails, the loop scans every slot from `i` on, calling
`fork` at each empty one, and changes no slot. -/
theorem spawn_loop_all_fail (fork : Nat → Int) (c : Work) :
    ∀ (n i : Nat) (r : Run), i + n = MAX_PROCS → r.forks = emptyBelow r.pids i →
      (∀ k, k < emptyBelow r.pids MAX_PROCS → fork k < 0) →
      spawn_loop fork c n i false r =
        SpawnResult.returned false
          ⟨r.pids, emptyBelow r.pids MAX_PROCS, r.trace ++ failedScan fork r.pids i n⟩ := by
  intro n
  induction n with
  | zero =>
    intro i r hi hforks _
    have hi2 : i = MAX_PROCS := by omega
    subst hi2
    simp only [spawn_loop, failedScan_zero, List.append_nil]
    rw [← hforks]
  | succ n ih =>
    intro i r hin hforks hfail
    have hi : i < MAX_PROCS := by omega
    have hstep := emptyBelow_step r.pids i hi
    have hmono := emptyBelow_mono r.pids (i + 1) MAX_PROCS (by omega)
    rw [spawn_loop_pass fork c n i r hi hforks (fun h0 => hfail _ (by
      rw [h0] at hstep
      simp only [if_true] at hstep
      omega))]
    rw [ih (i + 1) ⟨r.pids, emptyBelow r.pids (i + 1), r.trace ++ scanSlot fork r.pids i⟩
      (by omega) rfl hfail, failedScan_succ]
    simp

/-- When `s` is an empty slot, every call of `fork` made at the empty slots below `s`
fails and the call made at `s` returns `p > 0`, the loop from `i` scans the slots up to
`s` and stores `p` in slot `s`. -/
theorem spawn_loop_fail_then (fork : Nat → Int) (c : Work) (p : Int) (s : Fin MAX_PROCS) :
    ∀ (n i : Nat) (r : Run), i ≤ s.val → s.val < i + n → r.pids s = 0 →
      r.forks = emptyBelow r.pids i →
      (∀ k, k < emptyBelow r.pids s.val → fork k < 0) →
      fork (emptyBelow r.pids s.val) = p → 0 < p →
      spawn_loop fork c n i false r =
        SpawnResult.returned true
          ⟨Function.update r.pids s p, emptyBelow r.pids s.val + 1,
            r.trace ++ failedScan fork r.pids i (s.val - i) ++
              [Event.read s, Event.fork p, Event.out (Output.started p),
                Event.sem_wait, Event.write s p, Event.sem_post]⟩ := by
  intro n
  induction n with
  | zero => intro i r h1 h2; omega
  | succ n ih =>
    intro i r h1 h2 hs hforks hfail hf hp
    have hi : i < MAX_PROCS := lt_of_le_of_lt h1 s.isLt
    by_cases his : i = s.val
    · subst his
      have hp0 : p ≠ 0 := ne_of_gt hp
      simp [spawn_loop, spawn_body, hs, hforks, hf, hp, hp0, spawn_loop_set,
        Run.emit, failedScan_zero]
    · have hlt : i < s.val := lt_of_le_of_ne h1 his
      have hstep := emptyBelow_step r.pids i hi
      have hmono := emptyBelow_mono r.pids (i + 1) s.val (by omega)
      have hlen : s.val - i = (s.val - (i + 1)) + 1 := by omega
      rw [spawn_loop_pass fork c n i r hi hforks (fun h0 => hfail _ (by
        rw [h0] at hstep
        simp only [if_true] at hstep
        omega))]
      rw [ih (i + 1) ⟨r.pids, emptyBelow r.pids (i + 1), r.trace ++ scanSlot fork r.pids i⟩
        (by omega) (by omega) hs rfl hfail hf hp, hlen, failedScan_succ]
      simp

/-- Claim C7, amended: a call of `spawn_process` does not stop at a failed `fork`
(one that returns less than 0) but goes on to the next empty slot, in index order.
When every call of `fork` fails, the call scans the four slots in index order and
calls `fork` once at each empty slot, as many times as the table has empty slots,
prints "Failed to fork" each time, changes no slot and returns with `pid_set` false.
When the calls made at the empty slots below an empty slot `s` fail and the call
made at `s` returns `p > 0`, the call scans the slots up to `s` in the same way, has
called `fork` once at each empty slot up to `s`, and writes `p` into slot `s`. In both
cases the whole result, the trace included, is given. -/
theorem spawn_process_fork_failures (fork : Nat → Int) (candidate : Work) (t : PidTable) :
    ((∀ k, k < t.emptySlots → fork k < 0) →
      spawn_process fork candidate t =
        SpawnResult.returned false
          ⟨t.pids, t.emptySlots,
            failedScan fork t.pids 0 MAX_PROCS ++ [Event.out Output.busy]⟩) ∧
    (∀ (s : Fin MAX_PROCS) (p : Int), t.pids s = 0 →
      (∀ k, k < emptyBelow t.pids s.val → fork k < 0) →
      fork (emptyBelow t.pids s.val) = p → 0 < p →
      spawn_process fork candidate t =
        SpawnResult.returned true
          ⟨Function.update t.pids s p, emptyBelow t.pids s.val + 1,
            failedScan fork t.pids 0 s.val ++
              [Event.read s, Event.fork p, Event.out (Output.started p),
                Event.sem_wait, Event.write s p, Event.sem_post]⟩) := by
  constructor
  · intro hfail
    have h := spawn_loop_all_fail fork candidate MAX_PROCS 0 (Run.start t) (by omega)
      (by simp [emptyBelow_zero])
      (fun k hk => hfail k (by rw [emptySlots_eq]; exact hk))
    simp [spawn_process, h, Run.emit, emptySlots_eq]
  · intro s p hs hfail hf hp
    have h := spawn_loop_fail_then fork candidate p s MAX_PROCS 0 (Run.start t)
      (Nat.zero_le _) (by have := s.isLt; omega) hs (by simp [emptyBelow_zero])
      hfail hf hp
    simp [spawn_process, h]

/-- Witness for C7 amended: on the table (3, 0, 5, 0), first with every `fork`
returning -1, then with the first `fork` returning -1 and the second 9. -/
theorem spawn_process_fork_failures_witness :
    (tableOf [3, 0, 5, 0]).emptySlots = 2 ∧
    (∀ k, k < (tableOf [3, 0, 5, 0]).emptySlots → (fun _ => (-1 : Int)) k < 0) ∧
    spawn_process (fun _ => -1) ⟨[], []⟩ (tableOf [3, 0, 5, 0]) =
      SpawnResult.returned false
        ⟨(tableOf [3, 0, 5, 0]).pids, (tableOf [3, 0, 5, 0]).emptySlots,
          failedScan (fun _ => -1) (tableOf [3, 0, 5, 0]).pids 0 MAX_PROCS ++
            [Event.out Output.busy]⟩ ∧
    failedScan (fun _ => -1) (tableOf [3, 0, 5, 0]).pids 0 MAX_PROCS =
      [Event.read 0, Event.read 1, Event.fork (-1), Event.out Output.failed_to_fork,
       Event.read 2, Event.read 3, Event.fork (-1), Event.out Output.failed_to_fork] ∧
    emptyBelow (tableOf [3, 0, 5, 0]).pids 3 = 1 ∧
    spawn_process (fun k => if k = 0 then -1 else 9) ⟨[], []⟩ (tableOf [3, 0, 5, 0]) =
      SpawnResult.returned true
        ⟨Function.update (tableOf [3, 0, 5, 0]).pids 3 9,
          emptyBelow (tableOf [3, 0, 5, 0]).pids 3 + 1,
          failedScan (fun k => if k = 0 then -1 else 9) (tableOf [3, 0, 5, 0]).pids 0 3 ++
            [Event.read 3, Event.fork 9, Event.out (Output.started 9),
              Event.sem_wait, Event.write 3 9, Event.sem_post]⟩ ∧
    failedScan (fun k => if k = 0 then -1 else 9) (tableOf [3, 0, 5, 0]).pids 0 3 =
      [Event.read 0, Event.read 1, Event.fork (-1), Event.out Output.failed_to_fork,
       Event.read 2] := by
  have hb : emptyBelow (tableOf [3, 0, 5, 0]).pids 3 = 1 := by decide
  refine ⟨by decide, fun _ _ => (by decide : (-1 : Int) < 0),
    (spawn_process_fork_failures (fun _ => -1) ⟨[], []⟩ (tableOf [3, 0, 5, 0])).1
      (fun _ _ => (by decide : (-1 : Int) < 0)),
    by decide, hb,
    (spawn_process_fork_failures (fun k => if k = 0 then -1 else 9) ⟨[], []⟩
      (tableOf [3, 0, 5, 0])).2 3 9 rfl ?_ ?_ (by decide),
    by decide⟩
  · intro k hk
    have hk0 : k = 0 := by
      have : k < 1 := by rw [← hb]; exact hk
      omega
    subst hk0
    decide
  · show (if emptyBelow (tableOf [3, 0, 5, 0]).pids 3 = 0 then (-1 : Int) else 9) = 9
    rw [hb]
    decide

/-- Counterexample to C7: on the table (0, 0, 0, 0), when every `fork` returns -1,
one call of `spawn_process` calls `fork` four times, not once. -/
theorem spawn_process_fork_retried :
    (spawn_process (fun _ => -1) ⟨[], []⟩ (tableOf [0, 0, 0, 0])).run.forks = 4 ∧
    (spawn_process (fun _ => -1) ⟨[], []⟩ (tableOf [0, 0, 0, 0])).run.forks ≠ 1 ∧
    (spawn_process (fun _ => -1) ⟨[], []⟩ (tableOf [0, 0, 0, 0])).run.trace =
      [Event.read 0, Event.fork (-1), Event.out Output.failed_to_fork,
       Event.read 1, Event.fork (-1), Event.out Output.failed_to_fork,
       Event.read 2, Event.fork (-1), Event.out Output.failed_to_fork,
       Event.read 3, Event.fork (-1), Event.out Output.failed_to_fork,
       Event.out Output.busy] := by
  decide

/-- Claim C8, the code at the failing input: on the table (3, 0, 5, 2), whose slot 1
is empty, when `fork` returns -1 the call prints "Failed to fork" and then also
"All available processes are busy, try again later". -/
theorem spawn_process_busy_with_empty_slot :
    (tableOf [3, 0, 5, 2]).pids 1 = 0 ∧
    (spawn_process (fun _ => -1) ⟨[], []⟩ (tableOf [3, 0, 5, 2])).run.trace =
      [Event.read 0, Event.read 1, Event.fork (-1), Event.out Output.failed_to_fork,
       Event.read 2, Event.read 3, Event.out Output.busy] := by
  decide

/-- Reads made while the guard is held keep the discipline. -/
theorem guardedFrom_reads (rest : List Event) :
    ∀ pre : List Event, (∀ e ∈ pre, ∃ j : Fin MAX_PROCS, e = Event.read j) →
      guardedFrom true (pre ++ rest) = guardedFrom true rest := by
  intro pre
  induction pre with
  | nil => intro _; rfl
  | cons e pre ih =>
    intro h
    obtain ⟨j, hj⟩ := h e (List.mem_cons_self _ _)
    subst hj
    simpa [guardedFrom] using ih (fun e he => h e (List.mem_cons_of_mem _ he))

/-- Every call of `cleanup_deactivated_pids` keeps the guard discipline: its reads and
its write are between its `sem_wait` and its `sem_post`. -/
theorem cleanup_trace_guarded (pid : Int) (t : PidTable) :
    guarded (cleanup_deactivated_pids pid t).trace = true := by
  by_cases hocc : ∃ j, t.pids j = pid
  · obtain ⟨k, hk, hlow⟩ := exists_lowest (fun j => t.pids j = pid) hocc
    obtain ⟨pre, hres, hall⟩ := cleanup_at pid t k hk hlow
    rw [hres]
    have hreads : ∀ e ∈ pre, ∃ j : Fin MAX_PROCS, e = Event.read j := by
      intro e he
      obtain ⟨j, _, hj⟩ := hall e he
      exact ⟨j, hj⟩
    have h := guardedFrom_reads
      [Event.read k, Event.write k 0, Event.out (Output.cleaned pid), Event.sem_post]
      pre hreads
    show guardedFrom true (pre ++ _) = true
    rw [h]
    rfl
  · have habs : ∀ j, t.pids j ≠ pid := fun j hj => hocc ⟨j, hj⟩
    have h := cleanup_loop_absent pid MAX_PROCS 0 ((Run.start t).emit Event.sem_wait)
      (fun j _ => by simpa using habs j)
    simp only [cleanup_deactivated_pids, h, readsFrom_all]
    rfl

/-- Claim C9, the code at the failing input: on the table (0, 0, 0, 0), when `fork`
returns 7, the trace of `spawn_process` starts with the read of slot 0, the test
that selects the slot, before any `sem_wait`; the trace does not keep the guard
discipline. -/
theorem spawn_process_reads_unguarded :
    (spawn_process (fun _ => 7) ⟨[], []⟩ (tableOf [0, 0, 0, 0])).run.trace =
      [Event.read 0, Event.fork 7, Event.out (Output.started 7), Event.sem_wait,
       Event.write 0 7, Event.sem_post] ∧
    guarded (spawn_process (fun _ => 7) ⟨[], []⟩ (tableOf [0, 0, 0, 0])).run.trace = false := by
  decide

/-! ## The command loop of client.c -/

/-- A line that fits: `fgets` takes the line and its newline and nothing more. -/
theorem fgets_take_line (rest : List CChar) :
    ∀ (n : Nat) (line : List CChar), NL ∉ line → line.length < n →
      fgets_take n (line ++ NL :: rest) = (line ++ [NL], rest) := by
  intro n
  induction n with
  | zero => intro line _ h; omega
  | succ n ih =>
    intro line hnl hlen
    cases line with
    | nil => simp [fgets_take]
    | cons c cs =>
      have hc : c ≠ NL := fun h => hnl (by simp [h])
      have hcs : NL ∉ cs := fun h => hnl (List.mem_cons_of_mem _ h)
      have := ih cs hcs (by simpa using hlen)
      simp [fgets_take, hc, this]

/-- Taking while a test holds stops at the first character that fails it. -/
theorem takeWhile_stop (f : CChar → Bool) (x : CChar) (r : List CChar) (hx : f x = false) :
    ∀ l : List CChar, (∀ a ∈ l, f a = true) → (l ++ x :: r).takeWhile f = l := by
  intro l
  induction l with
  | nil => intro _; simp [List.takeWhile, hx]
  | cons a l ih =>
    intro h
    have ha : f a = true := h a (List.mem_cons_self _ _)
    simp [List.takeWhile, ha, ih (fun b hb => h b (List.mem_cons_of_mem _ hb))]

/-- Storing at the index that follows an initial part replaces the next character. -/
theorem set_after (x y : CChar) (r : List CChar) :
    ∀ l : List CChar, (l ++ x :: r).set l.length y = l ++ y :: r := by
  intro l
  induction l with
  | nil => simp
  | cons a l ih => simp [ih]

/-- The reading part of an iteration on a line of at most STRING_SIZE - 2 characters,
none of them a newline or a NUL: the request holds the line, and the input is
consumed up to and including the newline. -/
theorem client_read_line (work : Work) (line rest : List CChar) (hnl : NL ∉ line)
    (hnul : NUL ∉ line) (hlen : line.length + 2 ≤ STRING_SIZE) :
    ∃ w : Work, client_read work (line ++ NL :: rest) = some (w, rest) ∧
      cstr w.command = line ∧ w.filename = work.filename := by
  have htake := fgets_take_line rest (STRING_SIZE - 1) line hnl (by omega)
  have hgood : ∀ a ∈ line, (decide (a ≠ NUL) && !([NL].contains a)) = true := by
    intro a ha
    have h1 : a ≠ NUL := fun h => hnul (h ▸ ha)
    have h2 : a ≠ NL := fun h => hnl (h ▸ ha)
    simp [h1, h2]
  have hstop : (decide (NL ≠ NUL) && !([NL].contains NL)) = false := by decide
  have hcspn : ∀ tail : List CChar, strcspn (line ++ NL :: tail) [NL] = line.length := by
    intro tail
    unfold strcspn
    rw [takeWhile_stop _ NL tail hstop line hgood]
  have hcstr : ∀ tail : List CChar, cstr (line ++ NUL :: tail) = line := by
    intro tail
    unfold cstr
    exact takeWhile_stop _ NUL tail (by decide) line (fun a ha => by
      have h1 : a ≠ NUL := fun h => hnul (h ▸ ha)
      simp [h1])
  have hne : line ++ [NL] ≠ [] := by simp
  refine ⟨{ work with command :=
      line ++ NUL :: ([NUL] ++ work.command.drop ((line ++ [NL]).length + 1)) }, ?_,
    hcstr _, rfl⟩
  simp only [client_read, fgets, htake, hne, if_false]
  have hbuf : line ++ [NL] ++ [NUL] ++ work.command.drop ((line ++ [NL]).length + 1) =
      line ++ NL :: ([NUL] ++ work.command.drop ((line ++ [NL]).length + 1)) := by
    simp
  rw [hbuf, hcspn, set_after]

/-- Claim C10, amended: for a line of at most STRING_SIZE - 2 = 1022 characters, none
of them a newline or a NUL, followed by a newline, one iteration of the loop of
client.c calls `spawn_process` once, with a request whose command is the whole
line without its newline, and consumes the input up to and including that newline. -/
theorem client_iteration_forwards_line (fork : Nat → Int) (work : Work) (t : PidTable)
    (line rest : List CChar) (hnl : NL ∉ line) (hnul : NUL ∉ line)
    (hlen : line.length ≤ STRING_SIZE - 2) :
    ∃ w : Work, client_iteration fork work (line ++ NL :: rest) t =
        (w, rest, some (spawn_process fork w t)) ∧
      cstr w.command = line := by
  have hsize : STRING_SIZE = 1024 := rfl
  obtain ⟨w, hw, hc, _⟩ := client_read_line work line rest hnl hnul (by omega)
  exact ⟨w, by simp [client_iteration, hw], hc⟩

/-- Witness for C10 amended: the line "ls", followed by the line "a". -/
theorem client_iteration_forwards_line_witness :
    NL ∉ [108, 115] ∧ NUL ∉ [108, 115] ∧ [108, 115].length ≤ STRING_SIZE - 2 ∧
    ∃ w : Work, client_iteration (fun _ => 7) ⟨List.replicate STRING_SIZE 0, []⟩
        ([108, 115] ++ NL :: [97, NL]) (tableOf [0, 0, 0, 0]) =
        (w, [97, NL], some (spawn_process (fun _ => 7) w (tableOf [0, 0, 0, 0]))) ∧
      cstr w.command = [108, 115] :=
  ⟨by decide, by decide, by decide,
    client_iteration_forwards_line (fun _ => 7) ⟨List.replicate STRING_SIZE 0, []⟩
      (tableOf [0, 0, 0, 0]) [108, 115] [97, NL] (by decide) (by decide) (by decide)⟩

set_option maxRecDepth 100000

/-- Counterexample to C10: on a line of 1024 characters `a` followed by a newline, the
command passed to `spawn_process` has 1023 characters, not the 1024 of the line, and
the last `a` and the newline stay in the input for the next iteration; on a line of
1023 characters the newline stays in the input, where it makes the next iteration
pass an empty command; on the line `a`, NUL, `b` the command passed is `a`. -/
theorem client_read_splits_long_line :
    (client_read ⟨List.replicate STRING_SIZE 0, []⟩ (List.replicate 1024 97 ++ [NL])).map
      (fun x => ((cstr x.1.command).length, x.2)) = some (1023, [97, NL]) ∧
    (client_read ⟨List.replicate STRING_SIZE 0, []⟩ (List.replicate 1023 97 ++ [NL])).map
      (fun x => ((cstr x.1.command).length, x.2)) = some (1023, [NL]) ∧
    (client_read ⟨List.replicate STRING_SIZE 0, []⟩ [97, NUL, 98, NL]).map
      (fun x => (cstr x.1.command, x.2)) = some ([97], []) := by
  decide

end CSnippets
